import Mathlib

/-!
Verification of the position-netting and order-admission engine of the
Backtest_Engine repository.  The definitions below are a shallow embedding of
`src/aimd.py` (classes `Position` and `Asks`) and `src/engine.py` (class
`Orchestrator`).  All quantities that the Python code manipulates are integers
(positions, signals, ask sizes, backlog, timestamps) or exact fractions
(prices, cash, fees, the AIMD penalty multiplier), so positions are modelled
as `Int` and prices as `ℚ`.
-/

/-- Sum of absolute values of a list of integers: the aggregate absolute
exposure of the book. -/
def sumAbs (l : List Int) : Int := (l.map (fun x => |x|)).sum

/-- Loop body of `Position.normalize` (src/aimd.py lines 24-31).  The
accumulator `cur` is the running `current_limit`; `cap` is the instance field
`inventory_limit`.  An entry that would push `cur` past `cap` is clamped to
the remaining headroom, keeping its sign, where the Python sign expression is
`1 if pos > 0 else -1`; every other entry is kept and its absolute value is
added to `cur`. -/
def Position.normalizeGo (cap : Int) (cur : Int) : List Int → List Int
  | [] => []
  | p :: ps =>
    if cur + |p| > cap then
      ((cap - cur) * (if p > 0 then 1 else -1)) :: Position.normalizeGo cap cap ps
    else
      p :: Position.normalizeGo cap (cur + |p|) ps

/-- `Position.normalize` (src/aimd.py lines 17-31): walk the position list in
index order with `current_limit` starting at 0. -/
def Position.normalize (cap : Int) (pos : List Int) : List Int :=
  Position.normalizeGo cap 0 pos

/-- Which branch of the `update_position` slot loop (src/aimd.py lines 49-63)
fired for a given slot.  `squareOff` is the branch at line 50, `openAligned`
at line 55, `forcedFlat` at line 58, `keepDir` the silent else of the
direction-locked branch, and `free` the direction-establishing else branch at
lines 61-63. -/
inductive UBranch
  | squareOff
  | openAligned
  | forcedFlat
  | keepDir
  | free
deriving DecidableEq, Repr

/-- Per-slot outcome of the `update_position` loop: the new (pre-normalize)
position, the aimd closed flag, and which source branch fired. -/
structure SlotRes where
  newPos : Int
  aimd : Int
  branch : UBranch
deriving DecidableEq, Repr

/-- The direction expression at src/aimd.py line 62:
`1 if ask > 0 else -1 if ask < 0 else 1 if pos > 0 else -1 if pos < 0 else 0`. -/
def posSign (a p : Int) : Int :=
  if a > 0 then 1 else if a < 0 then -1 else if p > 0 then 1 else if p < 0 then -1 else 0

/-- The slot loop of `Position.update_position` (src/aimd.py lines 47-63),
processing pairs of (signed ask, current position) in index order while
threading the scalar `direction`. -/
def updateLoop (d : Int) : List (Int × Int) → List SlotRes
  | [] => []
  | (a, p) :: rest =>
    if a * p < 0 then
      ⟨0, 1, UBranch.squareOff⟩ :: updateLoop d rest
    else if d ≠ 0 then
      if a * d > 0 ∧ p = 0 then ⟨a, 0, UBranch.openAligned⟩ :: updateLoop d rest
      else if p * d < 0 then ⟨0, 1, UBranch.forcedFlat⟩ :: updateLoop d rest
      else ⟨p, 0, UBranch.keepDir⟩ :: updateLoop d rest
    else
      ⟨p + a, 0, UBranch.free⟩ :: updateLoop (posSign a p) rest

/-- Result of `Position.update_position`: the normalized new position list,
the net trade delta, the aimd closed flags, and (instrumentation used only by
the starvation-close theorem) the branch that fired per slot. -/
structure UPosResult where
  newPos : List Int
  netDelta : Int
  aimd : List Int
  branches : List UBranch
deriving Repr

/-- `Position.update_position` (src/aimd.py lines 33-71): convert absolute
asks to signed asks with the signals, run the slot loop with `direction = 0`,
normalize the resulting positions against the inventory cap, and return the
net exposure change together with the closed flags. -/
def updatePosition (cap : Int) (pos signals asksAbs : List Int) : UPosResult :=
  let asks := List.zipWith (fun a s => a * s) asksAbs signals
  let slots := updateLoop 0 (asks.zip pos)
  let newPos := Position.normalize cap (slots.map SlotRes.newPos)
  { newPos := newPos
    netDelta := newPos.sum - pos.sum
    aimd := slots.map SlotRes.aimd
    branches := slots.map SlotRes.branch }

/-- State of the `Position` class (src/aimd.py lines 4-15). -/
structure PositionState where
  num_strats : Nat
  inventory_limit : Int
  trade_limit : Int
  pos : List Int
deriving DecidableEq, Repr

/-- `Position.__init__` (src/aimd.py lines 5-15): stores the three
configuration numbers unchanged, with no validation of any kind, and zeroes
the per-strategy position list. -/
def Position.init (numStrats : Nat) (inventoryLimit tradeLimit : Int) : PositionState :=
  { num_strats := numStrats
    inventory_limit := inventoryLimit
    trade_limit := tradeLimit
    pos := List.replicate numStrats 0 }

/-- Truncation toward zero of a rational, the behaviour of the Python builtin
`int()` applied to the float product in `Asks.update`. -/
def truncQ (q : ℚ) : Int := if q < 0 then -⌊-q⌋ else ⌊q⌋

/-- `Asks.update` (src/aimd.py lines 101-120): for each slot, if the realized
pnl is nonzero and the closed flag is 1, additively increase the ask on a
profit and multiplicatively decrease it (truncated, floored at 1) on a loss;
leave it unchanged otherwise. -/
def Asks.update (rewardAdd : Int) (penaltyMult : ℚ) : List Int → List ℚ → List Int → List Int
  | a :: as, pnl :: pnls, f :: fs =>
    (if pnl ≠ 0 ∧ f = 1 then
        if pnl > 0 then a + rewardAdd
        else max 1 (truncQ ((a : ℚ) * penaltyMult))
      else a) :: Asks.update rewardAdd penaltyMult as pnls fs
  | as, _, _ => as

/-- Allocator described by the specification text for `normalize` (spec §4.1):
walk in index order accumulating used capacity; an entry that fits is kept and
charged; an exceeding entry is clamped to the remaining headroom with its sign
preserved, or with plus sign if the entry is exactly zero, after which the
used capacity is treated as full. -/
def allocatorSpecGo (cap : Int) (used : Int) : List Int → List Int
  | [] => []
  | v :: vs =>
    if used + |v| ≤ cap then
      v :: allocatorSpecGo cap (used + |v|) vs
    else
      ((cap - used) * (if v > 0 then 1 else if v < 0 then -1 else 1)) ::
        allocatorSpecGo cap cap vs

/-- Entry point of the specification-worded allocator. -/
def allocatorSpec (cap : Int) (pos : List Int) : List Int :=
  allocatorSpecGo cap 0 pos

/-! ### Generic list helpers -/

/-- A defaulted lookup inside the bounds of a list is a member of the list. -/
theorem getD_mem_of_lt {α : Type} (l : List α) (i : Nat) (d : α) (h : i < l.length) :
    l.getD i d ∈ l := by
  rw [List.getD_eq_getElem l d h]
  exact List.getElem_mem h

/-- A defaulted lookup either returns the default or a member of the list. -/
theorem getD_default_or_mem {α : Type} (l : List α) (i : Nat) (d : α) :
    l.getD i d = d ∨ l.getD i d ∈ l := by
  rcases Nat.lt_or_ge i l.length with h | h
  · exact Or.inr (getD_mem_of_lt l i d h)
  · exact Or.inl (List.getD_eq_default l d h)

/-- Defaulted lookup commutes with `List.map` inside the bounds. -/
theorem getD_map_of_lt {α β : Type} (f : α → β) (l : List α) (i : Nat) (d : β) (e : α)
    (h : i < l.length) : (l.map f).getD i d = f (l.getD i e) := by
  induction l generalizing i with
  | nil => simp at h
  | cons a as ih =>
    cases i with
    | zero => simp
    | succ j =>
      simp only [List.map_cons, List.getD_cons_succ]
      exact ih j (Nat.lt_of_succ_lt_succ h)

/-- Extract the pointwise relation of a `Forall₂` at an in-bounds index. -/
theorem forall₂_getD {α β : Type} {R : α → β → Prop} :
    ∀ {l : List α} {m : List β}, List.Forall₂ R l m → ∀ (i : Nat) (d : α) (e : β),
      i < l.length → R (l.getD i d) (m.getD i e) := by
  intro l m h
  induction h with
  | nil => intro i d e hi; simp at hi
  | cons hab _ ih =>
    intro i d e hi
    cases i with
    | zero => simpa using hab
    | succ j => simpa using ih j d e (Nat.lt_of_succ_lt_succ hi)

/-- Sign transfer: if `x` weakly agrees in sign with `m` and is no larger in
magnitude, and `m` weakly agrees with `p`, then `x` weakly agrees with `p`. -/
theorem sign_trans {x m p : Int} (h1 : 0 ≤ x * m) (h2 : |x| ≤ |m|) (h3 : 0 ≤ m * p) :
    0 ≤ x * p := by
  by_cases hx : x = 0
  · simp [hx]
  · have hm : m ≠ 0 := by
      intro hm
      rw [hm] at h2
      simp only [abs_zero] at h2
      exact hx (abs_eq_zero.mp (le_antisymm h2 (abs_nonneg x)))
    have hxm : 0 < x * m := lt_of_le_of_ne h1 (Ne.symm (mul_ne_zero hx hm))
    have hm2 : 0 < m * m := mul_self_pos.mpr hm
    nlinarith [mul_nonneg hxm.le h3]

/-- A list whose entries all weakly agree in sign with a common direction has
all pairwise products nonnegative. -/
theorem pairwise_of_sign (l : List Int) (d : Int)
    (h : ∀ x ∈ l, 0 ≤ x * d ∧ (d = 0 → x = 0)) :
    ∀ x ∈ l, ∀ y ∈ l, 0 ≤ x * y := by
  intro x hx y hy
  by_cases hd : d = 0
  · rw [(h x hx).2 hd]
    simp
  · have hxd := (h x hx).1
    have hyd := (h y hy).1
    have hd2 : 0 < d * d := mul_self_pos.mpr hd
    nlinarith [mul_nonneg hxd hyd]

/-! ### Lemmas about `Position.normalize` -/

/-- Unfolding equation for `sumAbs` on a cons cell. -/
theorem sumAbs_cons (x : Int) (l : List Int) : sumAbs (x :: l) = |x| + sumAbs l := by
  simp [sumAbs]

/-- The normalize loop preserves the length of the list. -/
theorem normalizeGo_length (cap : Int) : ∀ (l : List Int) (cur : Int),
    (Position.normalizeGo cap cur l).length = l.length := by
  intro l
  induction l with
  | nil => intro cur; rfl
  | cons p ps ih =>
    intro cur
    by_cases h : cur + |p| > cap <;> simp [Position.normalizeGo, h, ih]

/-- Core capacity bound of the normalize loop: starting from used capacity
`cur ≤ cap`, the output absolute values sum to at most the remaining headroom. -/
theorem normalizeGo_sumAbs (cap : Int) : ∀ (l : List Int) (cur : Int), cur ≤ cap →
    sumAbs (Position.normalizeGo cap cur l) ≤ cap - cur := by
  intro l
  induction l with
  | nil => intro cur h; simp [Position.normalizeGo, sumAbs]; omega
  | cons p ps ih =>
    intro cur h
    by_cases hc : cur + |p| > cap
    · rw [Position.normalizeGo, if_pos hc, sumAbs_cons]
      have h0 : (0:Int) ≤ cap - cur := by omega
      have habs : |(cap - cur) * (if p > 0 then 1 else -1)| = cap - cur := by
        by_cases hp : p > 0
        · rw [if_pos hp, mul_one, abs_of_nonneg h0]
        · rw [if_neg hp, mul_neg_one, abs_neg, abs_of_nonneg h0]
      have hrest := ih cap le_rfl
      omega
    · rw [Position.normalizeGo, if_neg hc, sumAbs_cons]
      have hrest := ih (cur + |p|) (by omega)
      omega

/-- Once the used capacity equals the cap, the normalize loop zeroes every
remaining entry (nonzero entries are clamped to the zero headroom, zero
entries stay zero). -/
theorem normalizeGo_saturated (cap : Int) : ∀ (l : List Int),
    Position.normalizeGo cap cap l = List.replicate l.length 0 := by
  intro l
  induction l with
  | nil => rfl
  | cons p ps ih =>
    by_cases hp : p = 0
    · subst hp
      rw [Position.normalizeGo, if_neg (by simp)]
      rw [List.length_cons, List.replicate_succ]
      simp [ih]
    · have habs : 0 < |p| := abs_pos.mpr hp
      rw [Position.normalizeGo, if_pos (by omega)]
      rw [List.length_cons, List.replicate_succ]
      simp [ih]

/-- Pointwise effect of the normalize loop when the used capacity is within
the cap: every output entry weakly keeps the sign of the corresponding input
entry and is no larger in magnitude. -/
theorem normalizeGo_forall₂ (cap : Int) : ∀ (l : List Int) (cur : Int), cur ≤ cap →
    List.Forall₂ (fun x y => 0 ≤ x * y ∧ |x| ≤ |y|) (Position.normalizeGo cap cur l) l := by
  intro l
  induction l with
  | nil => intro cur _; exact List.Forall₂.nil
  | cons p ps ih =>
    intro cur h
    by_cases hc : cur + |p| > cap
    · rw [Position.normalizeGo, if_pos hc]
      refine List.Forall₂.cons ?_ (ih cap le_rfl)
      have hp : p ≠ 0 := by
        intro hp
        rw [hp] at hc
        simp at hc
        omega
      constructor
      · rcases lt_or_gt_of_ne hp with hneg | hpos
        · rw [if_neg (not_lt.mpr hneg.le)]
          have : (cap - cur) * -1 ≤ 0 := by omega
          exact mul_nonneg_of_nonpos_of_nonpos this hneg.le
        · rw [if_pos hpos]
          have : 0 ≤ (cap - cur) * 1 := by omega
          exact mul_nonneg this hpos.le
      · have h0 : (0:Int) ≤ cap - cur := by omega
        have habs : |(cap - cur) * (if p > 0 then 1 else -1)| = cap - cur := by
          by_cases hps : p > 0
          · rw [if_pos hps, mul_one, abs_of_nonneg h0]
          · rw [if_neg hps, mul_neg_one, abs_neg, abs_of_nonneg h0]
        omega
    · rw [Position.normalizeGo, if_neg hc]
      exact List.Forall₂.cons ⟨mul_self_nonneg p, le_rfl⟩ (ih (cur + |p|) (by omega))

/-- The normalize loop preserves agreement with a common direction `dd` when
the used capacity is within the cap. -/
theorem normalizeGo_sign (cap dd : Int) : ∀ (l : List Int) (cur : Int), cur ≤ cap →
    (∀ x ∈ l, 0 ≤ x * dd ∧ (dd = 0 → x = 0)) →
    ∀ x ∈ Position.normalizeGo cap cur l, 0 ≤ x * dd ∧ (dd = 0 → x = 0) := by
  intro l
  induction l with
  | nil => intro cur _ _ x hx; simp [Position.normalizeGo] at hx
  | cons p ps ih =>
    intro cur h hall x hx
    have hp := hall p (List.mem_cons_self p ps)
    have hps : ∀ y ∈ ps, 0 ≤ y * dd ∧ (dd = 0 → y = 0) :=
      fun y hy => hall y (List.mem_cons_of_mem p hy)
    by_cases hc : cur + |p| > cap
    · rw [Position.normalizeGo, if_pos hc] at hx
      rcases List.mem_cons.mp hx with rfl | hx
      · have hpne : p ≠ 0 := by
          intro hp0
          rw [hp0] at hc
          simp at hc
          omega
        constructor
        · rcases lt_or_gt_of_ne hpne with hneg | hpos
          · rw [if_neg (not_lt.mpr hneg.le)]
            have hdd : dd ≤ 0 := by nlinarith [hp.1]
            have : (cap - cur) * -1 ≤ 0 := by omega
            exact mul_nonneg_of_nonpos_of_nonpos this hdd
          · rw [if_pos hpos]
            have hdd : 0 ≤ dd := by nlinarith [hp.1]
            have : 0 ≤ (cap - cur) * 1 := by omega
            exact mul_nonneg this hdd
        · intro hdd0
          exact absurd (hp.2 hdd0) (by
            intro hp0
            rw [hp0] at hc
            simp at hc
            omega)
      · exact ih cap le_rfl hps x hx
    · rw [Position.normalizeGo, if_neg hc] at hx
      rcases List.mem_cons.mp hx with rfl | hx
      · exact hp
      · exact ih (cur + |p|) (by omega) hps x hx

/-- With a negative cap, the normalize loop clamps the first entry and zeroes
all the rest. -/
theorem normalizeGo_neg_cap (cap : Int) (hcap : cap < 0) (p : Int) (ps : List Int) :
    Position.normalizeGo cap 0 (p :: ps) =
      (cap * (if p > 0 then 1 else -1)) :: List.replicate ps.length 0 := by
  have habs : 0 ≤ |p| := abs_nonneg p
  rw [Position.normalizeGo, if_pos (by omega)]
  rw [normalizeGo_saturated]
  norm_num

/-! ### Lemmas about the `update_position` slot loop -/

/-- The slot loop preserves the number of slots. -/
theorem updateLoop_length : ∀ (l : List (Int × Int)) (d : Int),
    (updateLoop d l).length = l.length := by
  intro l
  induction l with
  | nil => intro d; rfl
  | cons hd tl ih =>
    intro d
    obtain ⟨a, p⟩ := hd
    rw [updateLoop]
    by_cases h1 : a * p < 0
    · simp [h1, ih]
    · by_cases h2 : d ≠ 0
      · by_cases h3 : a * d > 0 ∧ p = 0
        · simp [h1, h2, h3, ih]
        · by_cases h4 : p * d < 0 <;> simp [h1, h2, h3, h4, ih]
      · simp [h1, h2, ih]

/-- The closed flag of a slot is 1 exactly when the square-off branch or the
direction-lock forced-flat branch fired for it. -/
theorem updateLoop_aimd_branch : ∀ (l : List (Int × Int)) (d : Int), ∀ r ∈ updateLoop d l,
    r.aimd = if r.branch = UBranch.squareOff ∨ r.branch = UBranch.forcedFlat then 1 else 0 := by
  intro l
  induction l with
  | nil => intro d r hr; simp [updateLoop] at hr
  | cons hd tl ih =>
    intro d r hr
    obtain ⟨a, p⟩ := hd
    rw [updateLoop] at hr
    by_cases h1 : a * p < 0
    · rw [if_pos h1] at hr
      rcases List.mem_cons.mp hr with rfl | hr
      · simp
      · exact ih d r hr
    · rw [if_neg h1] at hr
      by_cases h2 : d ≠ 0
      · rw [if_pos h2] at hr
        by_cases h3 : a * d > 0 ∧ p = 0
        · rw [if_pos h3] at hr
          rcases List.mem_cons.mp hr with rfl | hr
          · simp
          · exact ih d r hr
        · rw [if_neg h3] at hr
          by_cases h4 : p * d < 0
          · rw [if_pos h4] at hr
            rcases List.mem_cons.mp hr with rfl | hr
            · simp
            · exact ih d r hr
          · rw [if_neg h4] at hr
            rcases List.mem_cons.mp hr with rfl | hr
            · simp
            · exact ih d r hr
      · rw [if_neg h2] at hr
        rcases List.mem_cons.mp hr with rfl | hr
        · simp
        · exact ih (posSign a p) r hr

/-- Direction soundness of the slot loop: there is a single direction `dd`
(the value the loop's `direction` variable settles on) such that every slot it
produces weakly agrees in sign with `dd`, and all slots are zero if `dd`
stayed 0.  If the loop starts with a nonzero direction, `dd` is that value. -/
theorem updateLoop_sign : ∀ (l : List (Int × Int)) (d : Int),
    ∃ dd, (d ≠ 0 → dd = d) ∧
      ∀ r ∈ updateLoop d l, 0 ≤ r.newPos * dd ∧ (dd = 0 → r.newPos = 0) := by
  intro l
  induction l with
  | nil => intro d; exact ⟨d, fun _ => rfl, by simp [updateLoop]⟩
  | cons hd tl ih =>
    intro d
    obtain ⟨a, p⟩ := hd
    by_cases h1 : a * p < 0
    · obtain ⟨dd, hdd, hall⟩ := ih d
      refine ⟨dd, hdd, ?_⟩
      intro r hr
      rw [updateLoop, if_pos h1] at hr
      rcases List.mem_cons.mp hr with rfl | hr
      · simp
      · exact hall r hr
    · by_cases h2 : d ≠ 0
      · obtain ⟨dd, hdd, hall⟩ := ih d
        have hdd' : dd = d := hdd h2
        subst hdd'
        refine ⟨dd, fun _ => rfl, ?_⟩
        intro r hr
        rw [updateLoop, if_neg h1, if_pos h2] at hr
        by_cases h3 : a * dd > 0 ∧ p = 0
        · rw [if_pos h3] at hr
          rcases List.mem_cons.mp hr with rfl | hr
          · exact ⟨le_of_lt h3.1, fun h0 => absurd h0 h2⟩
          · exact hall r hr
        · rw [if_neg h3] at hr
          by_cases h4 : p * dd < 0
          · rw [if_pos h4] at hr
            rcases List.mem_cons.mp hr with rfl | hr
            · simp
            · exact hall r hr
          · rw [if_neg h4] at hr
            rcases List.mem_cons.mp hr with rfl | hr
            · exact ⟨not_lt.mp h4, fun h0 => absurd h0 h2⟩
            · exact hall r hr
      · push_neg at h2
        subst h2
        obtain ⟨dd, hdd, hall⟩ := ih (posSign a p)
        by_cases hps : posSign a p = 0
        · have hap : a = 0 ∧ p = 0 := by
            unfold posSign at hps
            constructor <;> by_contra hc <;> rcases lt_or_gt_of_ne hc with h | h <;>
              simp [h, not_lt_of_gt h] at hps <;> omega
          refine ⟨dd, fun h0 => absurd rfl h0, ?_⟩
          intro r hr
          rw [updateLoop, if_neg h1, if_neg (by simp)] at hr
          rcases List.mem_cons.mp hr with rfl | hr
          · simp [hap.1, hap.2]
          · exact hall r hr
        · have hdd' : dd = posSign a p := hdd hps
          refine ⟨dd, fun h0 => absurd rfl h0, ?_⟩
          intro r hr
          rw [updateLoop, if_neg h1, if_neg (by simp)] at hr
          rcases List.mem_cons.mp hr with rfl | hr
          · refine ⟨?_, fun h0 => absurd (h0 ▸ hdd') (Ne.symm hps)⟩
            unfold posSign at hdd'
            by_cases ha1 : a > 0
            · rw [if_pos ha1] at hdd'
              have hp0 : 0 ≤ p := by
                by_contra hc
                push_neg at hc
                exact h1 (mul_neg_of_pos_of_neg ha1 hc)
              simp only [hdd', mul_one]
              omega
            · rw [if_neg ha1] at hdd'
              by_cases ha2 : a < 0
              · rw [if_pos ha2] at hdd'
                have hp0 : p ≤ 0 := by
                  by_contra hc
                  push_neg at hc
                  exact h1 (mul_neg_of_neg_of_pos ha2 hc)
                simp only [hdd', mul_neg_one]
                omega
              · rw [if_neg ha2] at hdd'
                have ha0 : a = 0 := by omega
                subst ha0
                by_cases hp1 : p > 0
                · rw [if_pos hp1] at hdd'
                  simp only [hdd', mul_one]
                  omega
                · rw [if_neg hp1] at hdd'
                  by_cases hp2 : p < 0
                  · rw [if_pos hp2] at hdd'
                    simp only [hdd', mul_neg_one]
                    omega
                  · exfalso
                    apply hps
                    unfold posSign
                    simp [ha1, ha2, hp1, hp2]
          · exact hall r hr

/-- Per-slot sign relation of the loop output against the incoming position
component: the loop never puts a slot on the opposite side of where it was. -/
theorem updateLoop_forall₂ : ∀ (l : List (Int × Int)) (d : Int),
    List.Forall₂ (fun r ap => 0 ≤ r.newPos * ap.2) (updateLoop d l) l := by
  intro l
  induction l with
  | nil => intro d; exact List.Forall₂.nil
  | cons hd tl ih =>
    intro d
    obtain ⟨a, p⟩ := hd
    rw [updateLoop]
    by_cases h1 : a * p < 0
    · rw [if_pos h1]
      exact List.Forall₂.cons (by simp) (ih d)
    · rw [if_neg h1]
      by_cases h2 : d ≠ 0
      · rw [if_pos h2]
        by_cases h3 : a * d > 0 ∧ p = 0
        · rw [if_pos h3]
          exact List.Forall₂.cons (by simp [h3.2]) (ih d)
        · rw [if_neg h3]
          by_cases h4 : p * d < 0
          · rw [if_pos h4]
            exact List.Forall₂.cons (by simp) (ih d)
          · rw [if_neg h4]
            exact List.Forall₂.cons (mul_self_nonneg p) (ih d)
      · rw [if_neg h2]
        refine List.Forall₂.cons ?_ (ih (posSign a p))
        have h0 := not_lt.mp h1
        show 0 ≤ (p + a) * p
        have hexp : (p + a) * p = p * p + a * p := by ring
        rw [hexp]
        exact add_nonneg (mul_self_nonneg p) h0

/-! ### Lemmas about `Asks.update` -/

/-- Bridging truncation toward zero (the Python `int()` builtin) and the
mathematical floor: under an outer `max` with 1 the two agree, because they
coincide on nonnegative arguments and both fall below 1 on negative ones. -/
theorem max_one_truncQ (q : ℚ) : max 1 (truncQ q) = max 1 ⌊q⌋ := by
  unfold truncQ
  by_cases hq : q < 0
  · rw [if_pos hq]
    have h1 : ⌊q⌋ < 0 := by
      by_contra hc
      push_neg at hc
      have h2 : ((0:Int):ℚ) ≤ (⌊q⌋:ℚ) := by exact_mod_cast hc
      have h3 := Int.floor_le q
      have h4 : ((0:Int):ℚ) ≤ q := le_trans h2 h3
      simp at h4
      linarith
    have h2 : 0 ≤ ⌊-q⌋ := Int.floor_nonneg.mpr (by linarith)
    rw [max_eq_left (by omega), max_eq_left (by omega)]
  · rw [if_neg hq]

/-- Full pointwise characterization of `Asks.update`: the slot is additively
increased on a closed profitable trade, multiplicatively decreased with a
floor of 1 on a closed losing trade, and left unchanged in every other case,
including when the pnl or flag lists run short. -/
theorem asks_update_getD (ra : Int) (pm : ℚ) :
    ∀ (asks : List Int) (pnls : List ℚ) (flags : List Int) (i : Nat), i < asks.length →
      ((pnls.getD i 0 ≠ 0 ∧ flags.getD i 0 = 1 →
          (Asks.update ra pm asks pnls flags).getD i 0 =
            if pnls.getD i 0 > 0 then asks.getD i 0 + ra
            else max 1 (truncQ ((asks.getD i 0 : ℚ) * pm))) ∧
        (¬(pnls.getD i 0 ≠ 0 ∧ flags.getD i 0 = 1) →
          (Asks.update ra pm asks pnls flags).getD i 0 = asks.getD i 0)) := by
  intro asks
  induction asks with
  | nil => intro pnls flags i hi; simp at hi
  | cons a as ih =>
    intro pnls flags i hi
    cases pnls with
    | nil =>
      constructor
      · intro h
        simp at h
      · intro _
        rfl
    | cons pnl ps =>
      cases flags with
      | nil =>
        constructor
        · intro h
          cases i <;> simp at h
        · intro _
          rfl
      | cons f fs =>
        cases i with
        | zero =>
          rw [Asks.update]
          constructor
          · intro h
            simp only [List.getD_cons_zero] at h ⊢
            rw [if_pos h]
          · intro h
            simp only [List.getD_cons_zero] at h ⊢
            rw [if_neg h]
        | succ j =>
          rw [Asks.update]
          simp only [List.getD_cons_succ]
          exact ih ps fs j (Nat.lt_of_succ_lt_succ hi)

/-! ### The normalize loop agrees with the allocator described by the spec -/

/-- With the used capacity within the cap, the code loop and the
specification-worded allocator produce the same list; the only textual
difference between the two, the sign given to a clamped zero entry, is
unreachable because a zero entry always fits in the remaining headroom. -/
theorem normalizeGo_eq_spec (cap : Int) : ∀ (l : List Int) (cur : Int), cur ≤ cap →
    Position.normalizeGo cap cur l = allocatorSpecGo cap cur l := by
  intro l
  induction l with
  | nil => intro cur _; rfl
  | cons p ps ih =>
    intro cur h
    by_cases hc : cur + |p| ≤ cap
    · rw [Position.normalizeGo, if_neg (by omega), allocatorSpecGo, if_pos hc]
      rw [ih (cur + |p|) (by omega)]
    · rw [Position.normalizeGo, if_pos (by omega), allocatorSpecGo, if_neg hc]
      have hp : p ≠ 0 := by
        intro hp0
        rw [hp0] at hc
        simp at hc
        omega
      rw [ih cap le_rfl]
      rcases lt_or_gt_of_ne hp with hneg | hpos
      · rw [if_neg (not_lt.mpr hneg.le), if_neg (not_lt.mpr hneg.le), if_pos hneg]
      · rw [if_pos hpos, if_pos hpos]

/-! ### Shared facts about `updatePosition` -/

/-- Projection equation: the new position list of `updatePosition` is the
normalize loop applied to the raw loop output. -/
theorem updatePosition_newPos_eq (cap : Int) (pos signals asksAbs : List Int) :
    (updatePosition cap pos signals asksAbs).newPos
      = Position.normalizeGo cap 0
          ((updateLoop 0 ((List.zipWith (fun a s => a * s) asksAbs signals).zip pos)).map
            SlotRes.newPos) := rfl

/-- Any two entries of the position list produced by `updatePosition` have a
nonnegative product, for every inventory cap. -/
theorem updatePosition_pairwise_mem (cap : Int) (pos signals asksAbs : List Int) :
    ∀ x ∈ (updatePosition cap pos signals asksAbs).newPos,
      ∀ y ∈ (updatePosition cap pos signals asksAbs).newPos, 0 ≤ x * y := by
  rw [updatePosition_newPos_eq]
  rcases le_or_lt 0 cap with hcap | hcap
  · obtain ⟨dd, _, hall⟩ :=
      updateLoop_sign ((List.zipWith (fun a s => a * s) asksAbs signals).zip pos) 0
    have hraw : ∀ x ∈ (updateLoop 0
        ((List.zipWith (fun a s => a * s) asksAbs signals).zip pos)).map SlotRes.newPos,
        0 ≤ x * dd ∧ (dd = 0 → x = 0) := by
      intro x hx
      obtain ⟨r, hr, rfl⟩ := List.mem_map.mp hx
      exact hall r hr
    exact pairwise_of_sign _ dd (normalizeGo_sign cap dd _ 0 hcap hraw)
  · cases hcase : (updateLoop 0
        ((List.zipWith (fun a s => a * s) asksAbs signals).zip pos)).map SlotRes.newPos with
    | nil =>
      intro x hx
      simp [Position.normalizeGo] at hx
    | cons p ps =>
      rw [normalizeGo_neg_cap cap hcap p ps]
      intro x hx y hy
      rcases List.mem_cons.mp hx with rfl | hx
      · rcases List.mem_cons.mp hy with rfl | hy
        · exact mul_self_nonneg _
        · rw [List.eq_of_mem_replicate hy]
          simp
      · rw [List.eq_of_mem_replicate hx]
        simp

/-! ### Claim C1: cap invariant -/

/-- C1.  Cap invariant: for every list of starting positions, every signals
list, and every asks list, after a call to `Position.update_position` (which
ends by calling `normalize` with the inventory cap of the ledger), the
resulting per-slot positions satisfy `sumAbs newPos ≤ inventoryLimit`,
provided the inventory limit is nonnegative. -/
theorem cap_invariant_after_update (cap : Int) (pos signals asksAbs : List Int)
    (hcap : 0 ≤ cap) :
    sumAbs (updatePosition cap pos signals asksAbs).newPos ≤ cap := by
  rw [updatePosition_newPos_eq]
  have h := normalizeGo_sumAbs cap
    ((updateLoop 0 ((List.zipWith (fun a s => a * s) asksAbs signals).zip pos)).map
      SlotRes.newPos) 0 hcap
  omega

/-- Witness for C1, the two-strategy example of spec §8: requests 80 and 90
against cap 100 produce positions summing to 100 in absolute value. -/
theorem cap_invariant_after_update_witness :
    (0:Int) ≤ 100 ∧ sumAbs (updatePosition 100 [0, 0] [1, 1] [80, 90]).newPos ≤ 100 :=
  ⟨by decide, cap_invariant_after_update 100 [0, 0] [1, 1] [80, 90] (by decide)⟩

/-! ### Claim C2: direction invariant -/

/-- C2.  Direction invariant: after a single `Position.update_position` call,
no two slots of the resulting position list hold nonzero positions of opposite
sign; every pairwise product of entries is nonnegative.  Out-of-range lookups
default to 0, for which the product is trivially nonnegative. -/
theorem direction_invariant_after_update (cap : Int) (pos signals asksAbs : List Int)
    (i j : Nat) :
    0 ≤ (updatePosition cap pos signals asksAbs).newPos.getD i 0 *
        (updatePosition cap pos signals asksAbs).newPos.getD j 0 := by
  rcases getD_default_or_mem ((updatePosition cap pos signals asksAbs).newPos) i 0 with h | h
  · rw [h]
    simp
  · rcases getD_default_or_mem ((updatePosition cap pos signals asksAbs).newPos) j 0 with h2 | h2
    · rw [h2]
      simp
    · exact updatePosition_pairwise_mem cap pos signals asksAbs _ h _ h2

/-! ### Claim C3: normalize is a first-come allocator -/

/-- C3.  `Position.normalize` is the first-come allocator described by the
specification: for a nonnegative inventory limit it walks the list in index
order, keeps every entry that fits while charging capacity, clamps the first
exceeding entry to the remaining headroom with its sign preserved (the plus
sign prescribed for a clamped zero entry is unreachable), and, once the
capacity is saturated, clamps every later nonzero entry to 0 while zero
entries stay 0 (the saturated loop returns an all-zero list). -/
theorem normalize_first_come_allocator (cap : Int) (l : List Int) (hcap : 0 ≤ cap) :
    Position.normalize cap l = allocatorSpec cap l ∧
      ∀ tail : List Int,
        Position.normalizeGo cap cap tail = List.replicate tail.length 0 :=
  ⟨normalizeGo_eq_spec cap l 0 hcap, fun tail => normalizeGo_saturated cap tail⟩

/-- Witness for C3 at cap 10 on the list `[7, 5, 0, 3]`, whose second entry is
clamped to 3 and whose fourth entry is starved to 0. -/
theorem normalize_first_come_allocator_witness :
    (0:Int) ≤ 10 ∧
      (Position.normalize 10 [7, 5, 0, 3] = allocatorSpec 10 [7, 5, 0, 3] ∧
        ∀ tail : List Int,
          Position.normalizeGo 10 10 tail = List.replicate tail.length 0) :=
  ⟨by decide, normalize_first_come_allocator 10 [7, 5, 0, 3] (by decide)⟩

/-! ### Claim C4: the AIMD update rule -/

/-- C4.  AIMD update rule of `Asks.update`: slot `i` is updated exactly when
its closed flag is set and its realized pnl is nonzero; a positive pnl adds
`rewardAdd` to the ask, a negative pnl replaces the ask by
`max 1 ⌊ask * penaltyMult⌋`, and in every other case the ask is left exactly
unchanged. -/
theorem aimd_update_rule (ra : Int) (pm : ℚ) (asks : List Int) (pnls : List ℚ)
    (flags : List Int) (i : Nat) (hi : i < asks.length) :
    (flags.getD i 0 = 1 ∧ pnls.getD i 0 ≠ 0 →
        (0 < pnls.getD i 0 →
          (Asks.update ra pm asks pnls flags).getD i 0 = asks.getD i 0 + ra) ∧
        (pnls.getD i 0 < 0 →
          (Asks.update ra pm asks pnls flags).getD i 0 =
            max 1 ⌊(asks.getD i 0 : ℚ) * pm⌋)) ∧
      (¬(flags.getD i 0 = 1 ∧ pnls.getD i 0 ≠ 0) →
        (Asks.update ra pm asks pnls flags).getD i 0 = asks.getD i 0) := by
  obtain ⟨h1, h2⟩ := asks_update_getD ra pm asks pnls flags i hi
  constructor
  · intro hcond
    have heq := h1 ⟨hcond.2, hcond.1⟩
    constructor
    · intro hpos
      rw [heq, if_pos hpos]
    · intro hneg
      rw [heq, if_neg (not_lt.mpr hneg.le), max_one_truncQ]
  · intro hcond
    exact h2 (fun hc => hcond ⟨hc.2, hc.1⟩)

/-- Witness for C4 on a single slot with ask 7, pnl 5 and closed flag set. -/
theorem aimd_update_rule_witness :
    (0:Nat) < [(7:Int)].length ∧
      (([(1:Int)].getD 0 0 = 1 ∧ [(5:ℚ)].getD 0 0 ≠ 0 →
          (0 < [(5:ℚ)].getD 0 0 →
            (Asks.update 33 0 [7] [5] [1]).getD 0 0 = [(7:Int)].getD 0 0 + 33) ∧
          ([(5:ℚ)].getD 0 0 < 0 →
            (Asks.update 33 0 [7] [5] [1]).getD 0 0 =
              max 1 ⌊(([(7:Int)].getD 0 0 : Int) : ℚ) * 0⌋)) ∧
        (¬([(1:Int)].getD 0 0 = 1 ∧ [(5:ℚ)].getD 0 0 ≠ 0) →
          (Asks.update 33 0 [7] [5] [1]).getD 0 0 = [(7:Int)].getD 0 0)) :=
  ⟨by decide, aimd_update_rule 33 0 [7] [5] [1] 0 (by decide)⟩

/-! ### Claim C9: per-slot sign preservation -/

/-- C9 counterexample.  With a negative inventory limit (which no constructor
rejects), a single `update_position` call flips a slot to the opposite sign:
starting from position 3 with no signal, normalize clamps the slot to -5, and
the product of the final and initial positions is negative. -/
theorem sign_preservation_cex :
    (updatePosition (-5) [3] [0] [10]).newPos.getD 0 0 * (3:Int) < 0 := by decide

/-- C9 amended.  Per-slot sign preservation holds provided the inventory limit
is nonnegative: no slot is flipped to the opposite sign by a single
`update_position` call; each final position has a nonnegative product with the
corresponding starting position. -/
theorem sign_preservation_with_nonneg_limit (cap : Int) (pos signals asksAbs : List Int)
    (hcap : 0 ≤ cap) (i : Nat) :
    0 ≤ (updatePosition cap pos signals asksAbs).newPos.getD i 0 * pos.getD i 0 := by
  rw [updatePosition_newPos_eq]
  by_cases hi : i < (Position.normalizeGo cap 0
      ((updateLoop 0 ((List.zipWith (fun a s => a * s) asksAbs signals).zip pos)).map
        SlotRes.newPos)).length
  · have hlen1 := normalizeGo_length cap
      ((updateLoop 0 ((List.zipWith (fun a s => a * s) asksAbs signals).zip pos)).map
        SlotRes.newPos) 0
    have hlen2 := List.length_map
      (updateLoop 0 ((List.zipWith (fun a s => a * s) asksAbs signals).zip pos))
      SlotRes.newPos
    have hlen3 := updateLoop_length
      ((List.zipWith (fun a s => a * s) asksAbs signals).zip pos) 0
    have hlen4 : ((List.zipWith (fun a s => a * s) asksAbs signals).zip pos).length
        = min (List.zipWith (fun a s => a * s) asksAbs signals).length pos.length :=
      List.length_zip (List.zipWith (fun a s => a * s) asksAbs signals) pos
    have hizip : i < ((List.zipWith (fun a s => a * s) asksAbs signals).zip pos).length := by
      omega
    have hipos : i < pos.length := by
      rw [hlen4] at hizip
      omega
    have F1 := normalizeGo_forall₂ cap
      ((updateLoop 0 ((List.zipWith (fun a s => a * s) asksAbs signals).zip pos)).map
        SlotRes.newPos) 0 hcap
    have s1 := forall₂_getD F1 i 0 0 hi
    have hraw := getD_map_of_lt SlotRes.newPos
      (updateLoop 0 ((List.zipWith (fun a s => a * s) asksAbs signals).zip pos)) i 0
      ⟨0, 0, UBranch.free⟩ (by omega)
    have F2 := updateLoop_forall₂ ((List.zipWith (fun a s => a * s) asksAbs signals).zip pos) 0
    have s2 := forall₂_getD F2 i ⟨0, 0, UBranch.free⟩ (0, 0) (by omega)
    have hzip : ((List.zipWith (fun a s => a * s) asksAbs signals).zip pos).getD i (0, 0)
        = ((List.zipWith (fun a s => a * s) asksAbs signals).getD i 0, pos.getD i 0) := by
      rw [List.getD_eq_getElem _ _ hizip, List.getElem_zip,
        List.getD_eq_getElem _ _ (by rw [hlen4] at hizip; omega : i < (List.zipWith (fun a s => a * s) asksAbs signals).length),
        List.getD_eq_getElem _ _ hipos]
    rw [hzip] at s2
    rw [hraw] at s1
    exact sign_trans s1.1 s1.2 s2
  · rw [List.getD_eq_default _ _ (le_of_not_lt hi)]
    simp

/-- Witness for the amended C9: a long slot grown from 7 and clamped to the
cap keeps its sign. -/
theorem sign_preservation_with_nonneg_limit_witness :
    (0:Int) ≤ 10 ∧ 0 ≤ (updatePosition 10 [7] [1] [5]).newPos.getD 0 0 * [(7:Int)].getD 0 0 :=
  ⟨by decide, sign_preservation_with_nonneg_limit 10 [7] [1] [5] (by decide) 0⟩

/-! ### Embedding of src/engine.py -/

/-- Configuration surface of the engine as described by the spec (§6) and
read by `Orchestrator.__init__` (src/engine.py lines 13-42).  The field
`day_length` belongs to the configuration surface named by the spec; the
source never reads it (src/engine.py line 50 hardcodes the day length). -/
structure Config where
  inventory_limit : Int
  trade_limit : Int
  cooldown_period : Int
  initial_equity : ℚ
  initial_ask : Int
  reward_add : Int
  penalty_mult : ℚ
  snapshot_period : Int
  transaction_cost : ℚ
  day_length : Int
deriving DecidableEq, Repr

/-- One tick record together with the answers the external strategy
collaborators would give on this tick (the strategies are modelled as
oracles, one boolean per strategy per question). -/
structure Tick where
  timeSec : Int
  price : ℚ
  longEntry : List Bool
  shortEntry : List Bool
  longExit : List Bool
  shortExit : List Bool
deriving Repr

/-- One row of the trade book, appended by `Orchestrator._log_order`
(src/engine.py lines 215-238) on each backlog release. -/
structure TradeRec where
  time : Int
  price : ℚ
  quantity : Int
  buy : Bool
  inventory : Int
  cost : ℚ
  day : Option Int
deriving Repr

/-- State of the `Orchestrator` class (src/engine.py lines 12-74) restricted
to the scalar and per-slot fields the core state machine reads and writes.
The pandas `snap_book` is modelled by a row count. -/
structure Orch where
  numStrats : Nat
  cfg : Config
  pos : List Int
  asks : List Int
  cash : ℚ
  equity : ℚ
  entryPrices : List ℚ
  entryTimes : List (Option Int)
  lastTradeTime : Int
  dayLength : Int
  eodSquaredOff : Bool
  currentPointer : Int
  tradeBacklog : Int
  currentInventory : Int
  currentDay : Option Int
  dayStartEquity : ℚ
  dayStartFees : ℚ
  dayStartTradeIdx : Nat
  totalFee : ℚ
  trades : List TradeRec
  snapCount : Nat
deriving Repr

/-- `Orchestrator.__init__` (src/engine.py lines 13-74): store the
configuration values with no validation, zero all per-slot state, set the
cooldown baseline to `-cooldown_period`, and hardcode the day length to
`6 * 3600` seconds (line 50), ignoring `cfg.day_length`. -/
def Orchestrator.init (numStrats : Nat) (cfg : Config) : Orch :=
  { numStrats := numStrats
    cfg := cfg
    pos := List.replicate numStrats 0
    asks := List.replicate numStrats cfg.initial_ask
    cash := cfg.initial_equity
    equity := cfg.initial_equity
    entryPrices := List.replicate numStrats 0
    entryTimes := List.replicate numStrats none
    lastTradeTime := -cfg.cooldown_period
    dayLength := 6 * 3600
    eodSquaredOff := false
    currentPointer := 0
    tradeBacklog := 0
    currentInventory := 0
    currentDay := none
    dayStartEquity := 0
    dayStartFees := 0
    dayStartTradeIdx := 0
    totalFee := 0
    trades := []
    snapCount := 0 }

/-- `Orchestrator.get_signals` (src/engine.py lines 140-155): one signal per
strategy; a flat slot may open long (checked first) or short, a long slot may
signal -1 on a long exit, a short slot +1 on a short exit, otherwise 0. -/
def getSignals (s : Orch) (t : Tick) : List Int :=
  (List.range s.numStrats).map (fun i =>
    let p := s.pos.getD i 0
    if p = 0 then
      if t.longEntry.getD i false then 1
      else if t.shortEntry.getD i false then -1
      else 0
    else if p > 0 ∧ t.longExit.getD i false then -1
    else if p < 0 ∧ t.shortExit.getD i false then 1
    else 0)

/-- The entry-price bookkeeping of `process_tick` (src/engine.py lines
120-132): an opening slot records the current price, a closing slot resets its
entry price to 0, all other slots are untouched. -/
def updEntryPrices : List Int → List Int → List ℚ → ℚ → List ℚ
  | p :: ps, c :: cs, e :: es, price =>
    (if p = 0 ∧ c ≠ 0 then price else if c = 0 ∧ p ≠ 0 then 0 else e) ::
      updEntryPrices ps cs es price
  | _, _, _, _ => []

/-- The entry-time bookkeeping of `process_tick` (src/engine.py lines
120-132): an opening slot records the tick time, a closing slot clears it. -/
def updEntryTimes : List Int → List Int → List (Option Int) → Int → List (Option Int)
  | p :: ps, c :: cs, e :: es, tm =>
    (if p = 0 ∧ c ≠ 0 then some tm else if c = 0 ∧ p ≠ 0 then none else e) ::
      updEntryTimes ps cs es tm
  | _, _, _, _ => []

/-- `Orchestrator._calc_pnl` (src/engine.py lines 197-207): price pnl scaled
by the position sign, minus round-trip transaction costs, both scaled by the
absolute position; the second component is the amount added to `total_fee`. -/
def calcPnl (tc : ℚ) (entry exitP : ℚ) (position : Int) : ℚ × ℚ :=
  let pricePnl := (exitP - entry) * ((Int.sign position : Int) : ℚ)
  let cost := tc * (entry + exitP)
  ((pricePnl - cost) * ((|position| : Int) : ℚ), cost * ((|position| : Int) : ℚ))

/-- The pnl list built by `Orchestrator._compute_strategy_pnl` (src/engine.py
lines 174-195): a slot gets a realized pnl exactly when its previous position
was nonzero and the final position times the previous one is nonpositive;
the entry price list passed in is the one already updated by the entry
bookkeeping, reproducing the source order of operations. -/
def pnlListOf (tc : ℚ) (price : ℚ) : List Int → List Int → List ℚ → List ℚ
  | p :: ps, c :: cs, e :: es =>
    (if p ≠ 0 ∧ c * p ≤ 0 then (calcPnl tc e price p).1 else 0) ::
      pnlListOf tc price ps cs es
  | _, _, _ => []

/-- The total transaction fee accumulated by the `_calc_pnl` calls made from
`_compute_strategy_pnl` on one tick. -/
def pnlFeeOf (tc : ℚ) (price : ℚ) : List Int → List Int → List ℚ → ℚ
  | p :: ps, c :: cs, e :: es =>
    (if p ≠ 0 ∧ c * p ≤ 0 then (calcPnl tc e price p).2 else 0) +
      pnlFeeOf tc price ps cs es
  | _, _, _ => 0

/-- The day-boundary block of `process_tick` (src/engine.py lines 78-87):
on a new day identifier, refresh the equity, reset the cooldown baseline to
`-cooldown_period`, snapshot the day-start figures, and clear the end-of-day
square-off flag. -/
def dayRollover (s : Orch) (t : Tick) (d : Int) : Orch :=
  if s.currentDay = some d then s
  else
    { s with
      currentDay := some d
      equity := s.cash + (s.currentInventory : ℚ) * t.price
      lastTradeTime := -s.cfg.cooldown_period
      dayStartEquity := s.cash + (s.currentInventory : ℚ) * t.price
      dayStartFees := s.totalFee
      dayStartTradeIdx := s.trades.length
      eodSquaredOff := false }

/-- The snapshot block of `process_tick` (src/engine.py lines 94-95 and
239-254): when the time pointer is an exact multiple of the snapshot period,
refresh the equity and append a snapshot row. -/
def snapshotStep (s : Orch) (t : Tick) : Orch :=
  if s.currentPointer % s.cfg.snapshot_period = 0 then
    { s with
      equity := s.cash + (s.currentInventory : ℚ) * t.price
      snapCount := s.snapCount + 1 }
  else s

/-- The state right before the release check of `process_tick`: day rollover,
then the time pointer update of line 88, then the snapshot check. -/
def stage (s : Orch) (t : Tick) (d : Int) : Orch :=
  snapshotStep { dayRollover s t d with currentPointer := t.timeSec } t

/-- The release condition at src/engine.py line 97: the backlog is nonzero
and the cooldown has elapsed since `last_trade_time`. -/
def releaseFires (s : Orch) : Prop :=
  s.tradeBacklog ≠ 0 ∧ s.currentPointer - s.lastTradeTime > s.cfg.cooldown_period

instance (s : Orch) : Decidable (releaseFires s) :=
  inferInstanceAs
    (Decidable (s.tradeBacklog ≠ 0 ∧ s.currentPointer - s.lastTradeTime > s.cfg.cooldown_period))

/-- `Orchestrator.execute_trade` (src/engine.py lines 158-172): release
`min(|backlog|, trade_limit)` signed like the backlog, move it from backlog to
inventory, charge cash and fees, log the fill, and stamp the cooldown. -/
def executeTrade (s : Orch) (t : Tick) : Orch :=
  let q := min |s.tradeBacklog| s.cfg.trade_limit * Int.sign s.tradeBacklog
  { s with
    tradeBacklog := s.tradeBacklog - q
    currentInventory := s.currentInventory + q
    cash := s.cash - ((q : ℚ) * t.price + s.cfg.transaction_cost * t.price * ((|q| : Int) : ℚ))
    totalFee := s.totalFee + s.cfg.transaction_cost * t.price * ((|q| : Int) : ℚ)
    trades := s.trades ++
      [{ time := t.timeSec
         price := t.price
         quantity := |q|
         buy := q > 0
         inventory := s.pos.sum
         cost := s.cfg.transaction_cost * t.price * ((|q| : Int) : ℚ)
         day := s.currentDay }]
    lastTradeTime := s.currentPointer }

/-- The end-of-day block of `process_tick` (src/engine.py lines 104-111):
zero the position ledger, push the negated aggregate into the backlog, and
set the square-off flag. -/
def eodStep (s : Orch) : Orch :=
  { s with
    pos := List.replicate s.numStrats 0
    tradeBacklog := s.tradeBacklog - s.pos.sum
    eodSquaredOff := true }

/-- The signal-and-netting tail of `process_tick` (src/engine.py lines
113-134): collect signals, run the ledger update, accumulate the net delta
into the backlog, update entry prices and times, compute the per-slot
realized pnl (with the already-updated entry prices, as the source does), add
the pnl fees, and feed pnl and closed flags to the AIMD controller. -/
def normalStep (s : Orch) (t : Tick) : Orch :=
  let r := updatePosition s.cfg.inventory_limit s.pos (getSignals s t) s.asks
  let eP := updEntryPrices s.pos r.newPos s.entryPrices t.price
  let eT := updEntryTimes s.pos r.newPos s.entryTimes t.timeSec
  let pnls := pnlListOf s.cfg.transaction_cost t.price s.pos r.newPos eP
  { s with
    pos := r.newPos
    tradeBacklog := s.tradeBacklog + r.netDelta
    entryPrices := eP
    entryTimes := eT
    totalFee := s.totalFee + pnlFeeOf s.cfg.transaction_cost t.price s.pos r.newPos eP
    asks := Asks.update s.cfg.reward_add s.cfg.penalty_mult s.asks pnls r.aimd }

/-- `Orchestrator.process_tick` (src/engine.py lines 76-134): day rollover,
pointer update and snapshot, then in order: a firing backlog release consumes
the tick; a squared-off day ignores it; a tick at or past the day length
forces the square-off; otherwise the signal-and-netting step runs. -/
def processTick (s : Orch) (t : Tick) (d : Int) : Orch :=
  let s3 := stage s t d
  if releaseFires s3 then executeTrade s3 t
  else if s3.eodSquaredOff then s3
  else if s3.currentPointer ≥ s3.dayLength then eodStep s3
  else normalStep s3 t

/-- A run of the orchestrator over a list of ticks paired with their day
identifiers, as driven by src/main.py lines 88-90. -/
def run (s : Orch) : List (Tick × Int) → Orch
  | [] => s
  | (t, d) :: ts => run (processTick s t d) ts

/-- Quantity released by one tick: the signed capped slice when the release
fires, and 0 otherwise. -/
def tickReleased (s : Orch) (t : Tick) (d : Int) : Int :=
  if releaseFires (stage s t d) then
    min |(stage s t d).tradeBacklog| (stage s t d).cfg.trade_limit *
      Int.sign (stage s t d).tradeBacklog
  else 0

/-- Net quantity pushed into the backlog by one tick: the end-of-day
square-off push on an end-of-day tick, the net trade delta of the ledger
update on a normal tick, and 0 on a release or squared-off tick. -/
def tickDelta (s : Orch) (t : Tick) (d : Int) : Int :=
  if releaseFires (stage s t d) then 0
  else if (stage s t d).eodSquaredOff then 0
  else if (stage s t d).currentPointer ≥ (stage s t d).dayLength then -(stage s t d).pos.sum
  else (updatePosition (stage s t d).cfg.inventory_limit (stage s t d).pos
    (getSignals (stage s t d) t) (stage s t d).asks).netDelta

/-- Total released quantity over a run. -/
def runReleased (s : Orch) : List (Tick × Int) → Int
  | [] => 0
  | (t, d) :: ts => tickReleased s t d + runReleased (processTick s t d) ts

/-- Total backlog accumulation over a run. -/
def runDelta (s : Orch) : List (Tick × Int) → Int
  | [] => 0
  | (t, d) :: ts => tickDelta s t d + runDelta (processTick s t d) ts

/-- Timestamps of the releases fired during a run, in order. -/
def releaseTimes (s : Orch) : List (Tick × Int) → List Int
  | [] => []
  | (t, d) :: ts =>
    (if releaseFires (stage s t d) then [t.timeSec] else []) ++
      releaseTimes (processTick s t d) ts

/-! ### Field bookkeeping of the per-tick pipeline -/

/-- Day rollover on a tick of the current day is the identity. -/
theorem dayRollover_id (s : Orch) (t : Tick) (d : Int) (h : s.currentDay = some d) :
    dayRollover s t d = s := by
  unfold dayRollover
  rw [if_pos h]

/-- After the day rollover the current day is the incoming day identifier. -/
theorem dayRollover_currentDay (s : Orch) (t : Tick) (d : Int) :
    (dayRollover s t d).currentDay = some d := by
  unfold dayRollover
  split
  · assumption
  · rfl

theorem dayRollover_tradeBacklog (s : Orch) (t : Tick) (d : Int) :
    (dayRollover s t d).tradeBacklog = s.tradeBacklog := by
  unfold dayRollover
  split <;> rfl

theorem dayRollover_cfg (s : Orch) (t : Tick) (d : Int) :
    (dayRollover s t d).cfg = s.cfg := by
  unfold dayRollover
  split <;> rfl

theorem dayRollover_pos (s : Orch) (t : Tick) (d : Int) :
    (dayRollover s t d).pos = s.pos := by
  unfold dayRollover
  split <;> rfl

theorem dayRollover_asks (s : Orch) (t : Tick) (d : Int) :
    (dayRollover s t d).asks = s.asks := by
  unfold dayRollover
  split <;> rfl

theorem dayRollover_dayLength (s : Orch) (t : Tick) (d : Int) :
    (dayRollover s t d).dayLength = s.dayLength := by
  unfold dayRollover
  split <;> rfl

theorem dayRollover_numStrats (s : Orch) (t : Tick) (d : Int) :
    (dayRollover s t d).numStrats = s.numStrats := by
  unfold dayRollover
  split <;> rfl

theorem snapshotStep_tradeBacklog (s : Orch) (t : Tick) :
    (snapshotStep s t).tradeBacklog = s.tradeBacklog := by
  unfold snapshotStep
  split <;> rfl

theorem snapshotStep_cfg (s : Orch) (t : Tick) : (snapshotStep s t).cfg = s.cfg := by
  unfold snapshotStep
  split <;> rfl

theorem snapshotStep_pos (s : Orch) (t : Tick) : (snapshotStep s t).pos = s.pos := by
  unfold snapshotStep
  split <;> rfl

theorem snapshotStep_asks (s : Orch) (t : Tick) : (snapshotStep s t).asks = s.asks := by
  unfold snapshotStep
  split <;> rfl

theorem snapshotStep_dayLength (s : Orch) (t : Tick) :
    (snapshotStep s t).dayLength = s.dayLength := by
  unfold snapshotStep
  split <;> rfl

theorem snapshotStep_lastTradeTime (s : Orch) (t : Tick) :
    (snapshotStep s t).lastTradeTime = s.lastTradeTime := by
  unfold snapshotStep
  split <;> rfl

theorem snapshotStep_eodSquaredOff (s : Orch) (t : Tick) :
    (snapshotStep s t).eodSquaredOff = s.eodSquaredOff := by
  unfold snapshotStep
  split <;> rfl

theorem snapshotStep_currentPointer (s : Orch) (t : Tick) :
    (snapshotStep s t).currentPointer = s.currentPointer := by
  unfold snapshotStep
  split <;> rfl

theorem snapshotStep_currentDay (s : Orch) (t : Tick) :
    (snapshotStep s t).currentDay = s.currentDay := by
  unfold snapshotStep
  split <;> rfl

theorem snapshotStep_numStrats (s : Orch) (t : Tick) :
    (snapshotStep s t).numStrats = s.numStrats := by
  unfold snapshotStep
  split <;> rfl

theorem stage_tradeBacklog (s : Orch) (t : Tick) (d : Int) :
    (stage s t d).tradeBacklog = s.tradeBacklog := by
  unfold stage
  rw [snapshotStep_tradeBacklog]
  exact dayRollover_tradeBacklog s t d

theorem stage_currentPointer (s : Orch) (t : Tick) (d : Int) :
    (stage s t d).currentPointer = t.timeSec := by
  unfold stage
  rw [snapshotStep_currentPointer]

theorem stage_cfg (s : Orch) (t : Tick) (d : Int) : (stage s t d).cfg = s.cfg := by
  unfold stage
  rw [snapshotStep_cfg]
  exact dayRollover_cfg s t d

theorem stage_pos (s : Orch) (t : Tick) (d : Int) : (stage s t d).pos = s.pos := by
  unfold stage
  rw [snapshotStep_pos]
  exact dayRollover_pos s t d

theorem stage_asks (s : Orch) (t : Tick) (d : Int) : (stage s t d).asks = s.asks := by
  unfold stage
  rw [snapshotStep_asks]
  exact dayRollover_asks s t d

theorem stage_dayLength (s : Orch) (t : Tick) (d : Int) :
    (stage s t d).dayLength = s.dayLength := by
  unfold stage
  rw [snapshotStep_dayLength]
  exact dayRollover_dayLength s t d

theorem stage_lastTradeTime (s : Orch) (t : Tick) (d : Int) :
    (stage s t d).lastTradeTime = (dayRollover s t d).lastTradeTime := by
  unfold stage
  rw [snapshotStep_lastTradeTime]

theorem stage_eodSquaredOff (s : Orch) (t : Tick) (d : Int) :
    (stage s t d).eodSquaredOff = (dayRollover s t d).eodSquaredOff := by
  unfold stage
  rw [snapshotStep_eodSquaredOff]

theorem stage_currentDay (s : Orch) (t : Tick) (d : Int) :
    (stage s t d).currentDay = some d := by
  unfold stage
  rw [snapshotStep_currentDay]
  exact dayRollover_currentDay s t d

theorem stage_numStrats (s : Orch) (t : Tick) (d : Int) :
    (stage s t d).numStrats = s.numStrats := by
  unfold stage
  rw [snapshotStep_numStrats]
  exact dayRollover_numStrats s t d

/-- The backlog equation of a single tick: the backlog changes exactly by the
accumulated delta minus the released quantity. -/
theorem processTick_backlog (s : Orch) (t : Tick) (d : Int) :
    (processTick s t d).tradeBacklog = s.tradeBacklog + tickDelta s t d - tickReleased s t d := by
  unfold processTick tickDelta tickReleased
  by_cases h1 : releaseFires (stage s t d)
  · rw [if_pos h1, if_pos h1, if_pos h1]
    have hx : (executeTrade (stage s t d) t).tradeBacklog
        = (stage s t d).tradeBacklog -
          min |(stage s t d).tradeBacklog| (stage s t d).cfg.trade_limit *
            Int.sign (stage s t d).tradeBacklog := rfl
    rw [hx, stage_tradeBacklog]
    ring
  · rw [if_neg h1, if_neg h1, if_neg h1]
    by_cases h2 : (stage s t d).eodSquaredOff
    · rw [if_pos h2, if_pos h2, stage_tradeBacklog]
      ring
    · rw [if_neg h2, if_neg h2]
      by_cases h3 : (stage s t d).currentPointer ≥ (stage s t d).dayLength
      · rw [if_pos h3, if_pos h3]
        have hx : (eodStep (stage s t d)).tradeBacklog
            = (stage s t d).tradeBacklog - (stage s t d).pos.sum := rfl
        rw [hx, stage_tradeBacklog]
        ring
      · rw [if_neg h3, if_neg h3]
        have hx : (normalStep (stage s t d) t).tradeBacklog
            = (stage s t d).tradeBacklog +
              (updatePosition (stage s t d).cfg.inventory_limit (stage s t d).pos
                (getSignals (stage s t d) t) (stage s t d).asks).netDelta := rfl
        rw [hx, stage_tradeBacklog]
        ring

/-- The backlog equation over a whole run, by induction over the ticks. -/
theorem run_backlog (ts : List (Tick × Int)) : ∀ s : Orch,
    (run s ts).tradeBacklog = s.tradeBacklog + runDelta s ts - runReleased s ts := by
  induction ts with
  | nil => intro s; simp [run, runDelta, runReleased]
  | cons p ts ih =>
    intro s
    obtain ⟨t, d⟩ := p
    rw [run, runDelta, runReleased, ih (processTick s t d), processTick_backlog]
    ring

/-! ### Claim C5: backlog release quantity and conservation -/

/-- C5.  Backlog release and conservation: a release fires exactly when the
backlog is nonzero and the tick time is more than the cooldown past
`last_trade_time` (as reset by the day rollover); the released quantity is
`min(|backlog|, tradeLimit)` carrying the sign of the backlog; one tick moves
the backlog by its accumulated delta (net trade delta or end-of-day push)
minus the released quantity; and over any window of ticks the final backlog
is the initial backlog plus all accumulated deltas minus all released
quantities, exactly. -/
theorem backlog_conservation (s : Orch) (t : Tick) (d : Int) (ts : List (Tick × Int)) :
    (releaseFires (stage s t d) ↔
        s.tradeBacklog ≠ 0 ∧
          t.timeSec - (dayRollover s t d).lastTradeTime > s.cfg.cooldown_period) ∧
      tickReleased s t d =
        (if releaseFires (stage s t d) then
          min |s.tradeBacklog| s.cfg.trade_limit * Int.sign s.tradeBacklog
        else 0) ∧
      (processTick s t d).tradeBacklog = s.tradeBacklog + tickDelta s t d - tickReleased s t d ∧
      (run s ts).tradeBacklog = s.tradeBacklog + runDelta s ts - runReleased s ts := by
  refine ⟨?_, ?_, processTick_backlog s t d, run_backlog ts s⟩
  · unfold releaseFires
    rw [stage_tradeBacklog, stage_currentPointer, stage_lastTradeTime, stage_cfg]
  · unfold tickReleased
    rw [stage_tradeBacklog, stage_cfg]

/-! ### processTick bookkeeping -/

theorem processTick_cfg (s : Orch) (t : Tick) (d : Int) : (processTick s t d).cfg = s.cfg := by
  unfold processTick
  by_cases h1 : releaseFires (stage s t d)
  · rw [if_pos h1, show (executeTrade (stage s t d) t).cfg = (stage s t d).cfg from rfl,
      stage_cfg]
  · rw [if_neg h1]
    by_cases h2 : (stage s t d).eodSquaredOff = true
    · rw [if_pos h2]
      exact stage_cfg s t d
    · rw [if_neg h2]
      by_cases h3 : (stage s t d).currentPointer ≥ (stage s t d).dayLength
      · rw [if_pos h3, show (eodStep (stage s t d)).cfg = (stage s t d).cfg from rfl, stage_cfg]
      · rw [if_neg h3, show (normalStep (stage s t d) t).cfg = (stage s t d).cfg from rfl,
          stage_cfg]

theorem processTick_currentDay (s : Orch) (t : Tick) (d : Int) :
    (processTick s t d).currentDay = some d := by
  unfold processTick
  by_cases h1 : releaseFires (stage s t d)
  · rw [if_pos h1,
      show (executeTrade (stage s t d) t).currentDay = (stage s t d).currentDay from rfl,
      stage_currentDay]
  · rw [if_neg h1]
    by_cases h2 : (stage s t d).eodSquaredOff = true
    · rw [if_pos h2]
      exact stage_currentDay s t d
    · rw [if_neg h2]
      by_cases h3 : (stage s t d).currentPointer ≥ (stage s t d).dayLength
      · rw [if_pos h3,
          show (eodStep (stage s t d)).currentDay = (stage s t d).currentDay from rfl,
          stage_currentDay]
      · rw [if_neg h3,
          show (normalStep (stage s t d) t).currentDay = (stage s t d).currentDay from rfl,
          stage_currentDay]

/-- On a tick of the current day, `last_trade_time` is stamped with the tick
time by a firing release and is untouched otherwise. -/
theorem processTick_ltt (s : Orch) (t : Tick) (d : Int) (h : s.currentDay = some d) :
    (processTick s t d).lastTradeTime =
      if releaseFires (stage s t d) then t.timeSec else s.lastTradeTime := by
  unfold processTick
  by_cases h1 : releaseFires (stage s t d)
  · rw [if_pos h1, if_pos h1,
      show (executeTrade (stage s t d) t).lastTradeTime = (stage s t d).currentPointer from rfl,
      stage_currentPointer]
  · rw [if_neg h1, if_neg h1]
    have hltt : (stage s t d).lastTradeTime = s.lastTradeTime := by
      rw [stage_lastTradeTime, dayRollover_id s t d h]
    by_cases h2 : (stage s t d).eodSquaredOff = true
    · rw [if_pos h2]
      exact hltt
    · rw [if_neg h2]
      by_cases h3 : (stage s t d).currentPointer ≥ (stage s t d).dayLength
      · rw [if_pos h3,
          show (eodStep (stage s t d)).lastTradeTime = (stage s t d).lastTradeTime from rfl, hltt]
      · rw [if_neg h3,
          show (normalStep (stage s t d) t).lastTradeTime = (stage s t d).lastTradeTime from rfl,
          hltt]

/-- On a tick of the current day, the release condition reads the fields of
the incoming state directly. -/
theorem releaseFires_sameDay (s : Orch) (t : Tick) (d : Int) (h : s.currentDay = some d) :
    releaseFires (stage s t d) ↔
      s.tradeBacklog ≠ 0 ∧ t.timeSec - s.lastTradeTime > s.cfg.cooldown_period := by
  unfold releaseFires
  rw [stage_tradeBacklog, stage_currentPointer, stage_lastTradeTime, stage_cfg,
    dayRollover_id s t d h]

/-- Strengthened cooldown separation for a run that stays on one day: every
recorded release time is at least a full cooldown past the incoming
`last_trade_time`, and consecutive (hence all) release times are separated by
at least `cooldown_period + 1`. -/
theorem releases_sep_aux (c : Int) (hc : 0 ≤ c) :
    ∀ (ts : List (Tick × Int)) (s : Orch) (d : Int),
      s.cfg.cooldown_period = c → s.currentDay = some d → (∀ p ∈ ts, p.2 = d) →
      (∀ x ∈ releaseTimes s ts, s.lastTradeTime + c + 1 ≤ x) ∧
        List.Pairwise (fun a b => a + c + 1 ≤ b) (releaseTimes s ts) := by
  intro ts
  induction ts with
  | nil =>
    intro s d _ _ _
    constructor
    · intro x hx
      simp [releaseTimes] at hx
    · simp [releaseTimes]
  | cons p ts ih =>
    intro s d hcfg hday hall
    obtain ⟨t, d2⟩ := p
    have hd2 : d2 = d := hall (t, d2) (List.mem_cons_self _ _)
    subst hd2
    have hall2 : ∀ q ∈ ts, q.2 = d2 := fun q hq => hall q (List.mem_cons_of_mem _ hq)
    have hcfg2 : (processTick s t d2).cfg.cooldown_period = c := by
      rw [processTick_cfg]
      exact hcfg
    obtain ⟨ih1, ih2⟩ := ih (processTick s t d2) d2 hcfg2 (processTick_currentDay s t d2) hall2
    by_cases hf : releaseFires (stage s t d2)
    · have hfire := (releaseFires_sameDay s t d2 hday).mp hf
      have hsep : s.lastTradeTime + c + 1 ≤ t.timeSec := by
        have h2 := hfire.2
        rw [hcfg] at h2
        omega
      have hltt : (processTick s t d2).lastTradeTime = t.timeSec := by
        rw [processTick_ltt s t d2 hday, if_pos hf]
      rw [releaseTimes, if_pos hf]
      simp only [List.singleton_append]
      constructor
      · intro x hx
        rcases List.mem_cons.mp hx with rfl | hx
        · exact hsep
        · have h3 := ih1 x hx
          rw [hltt] at h3
          omega
      · refine List.Pairwise.cons ?_ ih2
        intro x hx
        have h3 := ih1 x hx
        rw [hltt] at h3
        omega
    · have hltt : (processTick s t d2).lastTradeTime = s.lastTradeTime := by
        rw [processTick_ltt s t d2 hday, if_neg hf]
      rw [releaseTimes, if_neg hf]
      simp only [List.nil_append]
      rw [hltt] at ih1
      exact ⟨ih1, ih2⟩

/-! ### Concrete configurations and states used by witnesses and counterexamples -/

/-- A small concrete configuration: cap 100, release slices of at most 5, a
15-tick cooldown, zero costs. -/
def cfgA : Config :=
  { inventory_limit := 100
    trade_limit := 5
    cooldown_period := 15
    initial_equity := 0
    initial_ask := 10
    reward_add := 33
    penalty_mult := 0
    snapshot_period := 300
    transaction_cost := 0
    day_length := 21600 }

/-- A tick at a given time with no strategy signals. -/
def tickN (tau : Int) : Tick :=
  { timeSec := tau
    price := 1
    longEntry := []
    shortEntry := []
    longExit := []
    shortExit := [] }

/-- A mid-run state on day 1 with a backlog of 10 and one open slot. -/
def cexState : Orch :=
  { numStrats := 1
    cfg := cfgA
    pos := [10]
    asks := [10]
    cash := 0
    equity := 0
    entryPrices := [1]
    entryTimes := [some 0]
    lastTradeTime := -15
    dayLength := 21600
    eodSquaredOff := false
    currentPointer := 0
    tradeBacklog := 10
    currentInventory := 0
    currentDay := some 1
    dayStartEquity := 0
    dayStartFees := 0
    dayStartTradeIdx := 0
    totalFee := 0
    trades := []
    snapCount := 0 }

/-! ### Claim C6: cooldown separation -/

/-- C6 counterexample.  Across a day boundary, two releases fire on
consecutive seconds: the release at time 16 on day 1 stamps the cooldown, but
the rollover to day 2 resets `last_trade_time` to `-cooldown_period`
(src/engine.py line 83), so a second release fires already at time 17, with
separation 1 < cooldownPeriod + 1, refuting the claim over runs that span
a day change. -/
theorem cooldown_separation_cex :
    releaseTimes cexState [(tickN 16, 1), (tickN 17, 2)] = [16, 17] ∧
      (17:Int) - 16 < cexState.cfg.cooldown_period + 1 := by
  decide

/-- C6 amended.  Within a single day (a run whose ticks all carry the current
day identifier), any two backlog releases at times t1 and then t2 satisfy
t2 - t1 >= cooldownPeriod + 1; the separation fails only across a day
rollover, which deliberately resets the cooldown baseline. -/
theorem cooldown_separation_within_day (s : Orch) (d : Int) (ts : List (Tick × Int))
    (hc : 0 ≤ s.cfg.cooldown_period) (hday : s.currentDay = some d)
    (hall : ∀ p ∈ ts, p.2 = d) :
    List.Pairwise (fun t1 t2 => t1 + s.cfg.cooldown_period + 1 ≤ t2) (releaseTimes s ts) :=
  (releases_sep_aux s.cfg.cooldown_period hc ts s d rfl hday hall).2

/-- Witness for the amended C6: a same-day run whose releases at times 16 and
40 are 24 >= 16 seconds apart. -/
theorem cooldown_separation_within_day_witness :
    ((0:Int) ≤ cexState.cfg.cooldown_period ∧ cexState.currentDay = some 1 ∧
        ∀ p ∈ [(tickN 16, (1:Int)), (tickN 17, 1), (tickN 40, 1)], p.2 = 1) ∧
      List.Pairwise (fun t1 t2 => t1 + cexState.cfg.cooldown_period + 1 ≤ t2)
        (releaseTimes cexState [(tickN 16, 1), (tickN 17, 1), (tickN 40, 1)]) :=
  ⟨⟨by decide, by decide, by decide⟩,
    cooldown_separation_within_day cexState 1 [(tickN 16, 1), (tickN 17, 1), (tickN 40, 1)]
      (by decide) (by decide) (by decide)⟩

/-! ### Claim C7: configuration fail-fast -/

/-- A configuration with non-positive inventory limit, trade limit, and
cooldown period. -/
def cfgBad : Config :=
  { cfgA with inventory_limit := -1, trade_limit := 0, cooldown_period := -2 }

/-- C7 counterexample.  Construction with non-positive `inventory_limit`,
`trade_limit`, and `cooldown_period` does not fail: both constructors are
total, store the offending values unchanged, and the resulting engine
processes a tick without any rejection. -/
theorem config_validation_cex :
    (Position.init 2 (-1) 0).inventory_limit = -1 ∧
      (Position.init 2 (-1) 0).trade_limit = 0 ∧
      (Position.init 2 (-1) 0).pos = [0, 0] ∧
      (Orchestrator.init 1 cfgBad).cfg.inventory_limit = -1 ∧
      (Orchestrator.init 1 cfgBad).cfg.trade_limit = 0 ∧
      (Orchestrator.init 1 cfgBad).cfg.cooldown_period = -2 ∧
      (processTick (Orchestrator.init 1 cfgBad) (tickN 0) 1).currentDay = some 1 := by
  decide

/-- C7 amended.  Neither constructor validates anything: `Position.__init__`
and `Orchestrator.__init__` are total for every parameter value, including
non-positive limits and cooldowns, and simply store the supplied values. -/
theorem config_constructors_total (n : Nat) (L T : Int) (cfg : Config) :
    (Position.init n L T).inventory_limit = L ∧
      (Position.init n L T).trade_limit = T ∧
      (Position.init n L T).num_strats = n ∧
      (Position.init n L T).pos = List.replicate n 0 ∧
      (Orchestrator.init n cfg).cfg = cfg ∧
      (Orchestrator.init n cfg).currentDay = none ∧
      (Orchestrator.init n cfg).tradeBacklog = 0 ∧
      (Orchestrator.init n cfg).lastTradeTime = -cfg.cooldown_period :=
  ⟨rfl, rfl, rfl, rfl, rfl, rfl, rfl, rfl⟩

/-! ### Claim C8: the EOD trigger -/

/-- A configuration asking for an end of day after 100 seconds. -/
def cfgB : Config := { cfgA with day_length := 100 }

/-- C8 counterexample.  The configured `day_length` of 100 is ignored: the
constructor hardcodes 21600 seconds, and a tick at time 100 (at the
configured day length) does not trigger the square-off. -/
theorem eod_trigger_cex :
    cfgB.day_length = 100 ∧
      (Orchestrator.init 1 cfgB).dayLength ≠ cfgB.day_length ∧
      (100:Int) ≥ cfgB.day_length ∧
      (processTick (Orchestrator.init 1 cfgB) (tickN 100) 1).eodSquaredOff = false := by
  decide

/-- C8 amended.  The end-of-day threshold is the hardcoded constant
`6 * 3600` seconds, not a configured value: the constructor sets it ignoring
`cfg.day_length`, and on a non-release tick of a day not yet squared off,
reaching the stored `dayLength` forces the square-off (flag set, ledger
zeroed). -/
theorem eod_trigger_is_hardcoded (n : Nat) (cfg : Config) (s : Orch) (t : Tick) (d : Int)
    (hrel : ¬ releaseFires (stage s t d))
    (heod : (stage s t d).eodSquaredOff = false)
    (hday : s.dayLength ≤ t.timeSec) :
    (Orchestrator.init n cfg).dayLength = 6 * 3600 ∧
      (processTick s t d).eodSquaredOff = true ∧
      (processTick s t d).pos = List.replicate s.numStrats 0 := by
  have hcond : (stage s t d).currentPointer ≥ (stage s t d).dayLength := by
    rw [stage_currentPointer, stage_dayLength]
    exact hday
  have heq : processTick s t d = eodStep (stage s t d) := by
    unfold processTick
    rw [if_neg hrel, if_neg (by rw [heod]; exact Bool.false_ne_true), if_pos hcond]
  refine ⟨rfl, ?_, ?_⟩
  · rw [heq]
    rfl
  · rw [heq]
    show List.replicate (stage s t d).numStrats 0 = _
    rw [stage_numStrats]

/-- The day-1 state with an empty backlog, about to reach the end of day. -/
def sB : Orch := { cexState with tradeBacklog := 0 }

/-- Witness for the amended C8: at exactly 21600 seconds the square-off fires
and the ledger is zeroed. -/
theorem eod_trigger_is_hardcoded_witness :
    (¬ releaseFires (stage sB (tickN 21600) 1) ∧
        (stage sB (tickN 21600) 1).eodSquaredOff = false ∧
        sB.dayLength ≤ (tickN 21600).timeSec) ∧
      ((Orchestrator.init 1 cfgA).dayLength = 6 * 3600 ∧
        (processTick sB (tickN 21600) 1).eodSquaredOff = true ∧
        (processTick sB (tickN 21600) 1).pos = List.replicate sB.numStrats 0) :=
  ⟨⟨by decide, by decide, by decide⟩,
    eod_trigger_is_hardcoded 1 cfgA sB (tickN 21600) 1 (by decide) (by decide) (by decide)⟩

/-! ### Claim C10: a starvation close sets no closed flag -/

/-- The ledger update performed inside the signal tail of `process_tick`
(src/engine.py line 116). -/
def updRes (s : Orch) (t : Tick) : UPosResult :=
  updatePosition s.cfg.inventory_limit s.pos (getSignals s t) s.asks

theorem updatePosition_aimd_eq (cap : Int) (pos signals asksAbs : List Int) :
    (updatePosition cap pos signals asksAbs).aimd
      = (updateLoop 0 ((List.zipWith (fun a s => a * s) asksAbs signals).zip pos)).map
          SlotRes.aimd := rfl

theorem updatePosition_branches_eq (cap : Int) (pos signals asksAbs : List Int) :
    (updatePosition cap pos signals asksAbs).branches
      = (updateLoop 0 ((List.zipWith (fun a s => a * s) asksAbs signals).zip pos)).map
          SlotRes.branch := rfl

theorem normalStep_entryPrices (s : Orch) (t : Tick) :
    (normalStep s t).entryPrices
      = updEntryPrices s.pos (updRes s t).newPos s.entryPrices t.price := rfl

theorem normalStep_entryTimes (s : Orch) (t : Tick) :
    (normalStep s t).entryTimes
      = updEntryTimes s.pos (updRes s t).newPos s.entryTimes t.timeSec := rfl

theorem normalStep_asks (s : Orch) (t : Tick) :
    (normalStep s t).asks
      = Asks.update s.cfg.reward_add s.cfg.penalty_mult s.asks
          (pnlListOf s.cfg.transaction_cost t.price s.pos (updRes s t).newPos
            (updEntryPrices s.pos (updRes s t).newPos s.entryPrices t.price))
          (updRes s t).aimd := rfl

/-- A slot whose branch was neither square-off nor forced-flat carries a zero
closed flag. -/
theorem updatePosition_aimd_of_branch (cap : Int) (pos signals asksAbs : List Int) (i : Nat)
    (hi : i < (updateLoop 0 ((List.zipWith (fun a s => a * s) asksAbs signals).zip pos)).length)
    (hb1 : (updatePosition cap pos signals asksAbs).branches.getD i UBranch.free ≠
      UBranch.squareOff)
    (hb2 : (updatePosition cap pos signals asksAbs).branches.getD i UBranch.free ≠
      UBranch.forcedFlat) :
    (updatePosition cap pos signals asksAbs).aimd.getD i 0 = 0 := by
  rw [updatePosition_aimd_eq,
    getD_map_of_lt SlotRes.aimd _ i 0 ⟨0, 0, UBranch.free⟩ hi]
  have hmem := getD_mem_of_lt _ i (⟨0, 0, UBranch.free⟩ : SlotRes) hi
  have hch := updateLoop_aimd_branch _ 0 _ hmem
  rw [updatePosition_branches_eq,
    getD_map_of_lt SlotRes.branch _ i UBranch.free ⟨0, 0, UBranch.free⟩ hi] at hb1 hb2
  rw [hch, if_neg]
  intro hor
  exact hor.elim hb1 hb2

/-- Length of the entry-price bookkeeping output. -/
theorem updEntryPrices_length (price : ℚ) : ∀ (prev curr : List Int) (eP : List ℚ),
    (updEntryPrices prev curr eP price).length = min prev.length (min curr.length eP.length) := by
  intro prev
  induction prev with
  | nil => intro curr eP; simp [updEntryPrices]
  | cons p ps ih =>
    intro curr eP
    cases curr with
    | nil => simp [updEntryPrices]
    | cons c cs =>
      cases eP with
      | nil => simp [updEntryPrices]
      | cons e es =>
        rw [updEntryPrices]
        simp [ih cs es]
        omega

/-- Pointwise value of the entry-price bookkeeping. -/
theorem updEntryPrices_getD (price : ℚ) : ∀ (prev curr : List Int) (eP : List ℚ) (i : Nat),
    i < prev.length → i < curr.length → i < eP.length →
    (updEntryPrices prev curr eP price).getD i 0 =
      if prev.getD i 0 = 0 ∧ curr.getD i 0 ≠ 0 then price
      else if curr.getD i 0 = 0 ∧ prev.getD i 0 ≠ 0 then 0
      else eP.getD i 0 := by
  intro prev
  induction prev with
  | nil => intro curr eP i h1 _ _; simp at h1
  | cons p ps ih =>
    intro curr eP i h1 h2 h3
    cases curr with
    | nil => simp at h2
    | cons c cs =>
      cases eP with
      | nil => simp at h3
      | cons e es =>
        cases i with
        | zero =>
          rw [updEntryPrices]
          simp only [List.getD_cons_zero]
        | succ j =>
          rw [updEntryPrices]
          simp only [List.getD_cons_succ]
          simp only [List.length_cons] at h1 h2 h3
          exact ih cs es j (by omega) (by omega) (by omega)

/-- Pointwise value of the entry-time bookkeeping. -/
theorem updEntryTimes_getD (tm : Int) : ∀ (prev curr : List Int) (eT : List (Option Int)) (i : Nat),
    i < prev.length → i < curr.length → i < eT.length →
    (updEntryTimes prev curr eT tm).getD i none =
      if prev.getD i 0 = 0 ∧ curr.getD i 0 ≠ 0 then some tm
      else if curr.getD i 0 = 0 ∧ prev.getD i 0 ≠ 0 then none
      else eT.getD i none := by
  intro prev
  induction prev with
  | nil => intro curr eT i h1 _ _; simp at h1
  | cons p ps ih =>
    intro curr eT i h1 h2 h3
    cases curr with
    | nil => simp at h2
    | cons c cs =>
      cases eT with
      | nil => simp at h3
      | cons e es =>
        cases i with
        | zero =>
          rw [updEntryTimes]
          simp only [List.getD_cons_zero]
        | succ j =>
          rw [updEntryTimes]
          simp only [List.getD_cons_succ]
          simp only [List.length_cons] at h1 h2 h3
          exact ih cs es j (by omega) (by omega) (by omega)

/-- Pointwise value of the pnl list. -/
theorem pnlListOf_getD (tc price : ℚ) : ∀ (prev curr : List Int) (eP : List ℚ) (i : Nat),
    i < prev.length → i < curr.length → i < eP.length →
    (pnlListOf tc price prev curr eP).getD i 0 =
      if prev.getD i 0 ≠ 0 ∧ curr.getD i 0 * prev.getD i 0 ≤ 0 then
        (calcPnl tc (eP.getD i 0) price (prev.getD i 0)).1
      else 0 := by
  intro prev
  induction prev with
  | nil => intro curr eP i h1 _ _; simp at h1
  | cons p ps ih =>
    intro curr eP i h1 h2 h3
    cases curr with
    | nil => simp at h2
    | cons c cs =>
      cases eP with
      | nil => simp at h3
      | cons e es =>
        cases i with
        | zero =>
          rw [pnlListOf]
          simp only [List.getD_cons_zero]
        | succ j =>
          rw [pnlListOf]
          simp only [List.getD_cons_succ]
          simp only [List.length_cons] at h1 h2 h3
          exact ih cs es j (by omega) (by omega) (by omega)

/-- Length of the signals list. -/
theorem getSignals_length (s : Orch) (t : Tick) : (getSignals s t).length = s.numStrats := by
  simp [getSignals]

/-- C10.  Starvation close sets no closed flag: in a well-formed state, if a
slot goes from a nonzero position to zero without the square-off branch or
the direction-lock forced-flat branch firing (so only normalize zeroed it),
then its aimd closed flag is 0; consequently in the signal tail of
`process_tick` a realized pnl is computed for the slot (with its just-cleared
entry price 0, as the source does), its entry price and entry time are
cleared, and `Asks.update` leaves its ask limit exactly unchanged. -/
theorem starvation_close_unflagged (s : Orch) (t : Tick) (i : Nat)
    (hpos : s.pos.length = s.numStrats) (hasks : s.asks.length = s.numStrats)
    (heP : s.entryPrices.length = s.numStrats) (heT : s.entryTimes.length = s.numStrats)
    (hi : i < s.numStrats)
    (hprev : s.pos.getD i 0 ≠ 0)
    (hcurr : (updRes s t).newPos.getD i 0 = 0)
    (hb1 : (updRes s t).branches.getD i UBranch.free ≠ UBranch.squareOff)
    (hb2 : (updRes s t).branches.getD i UBranch.free ≠ UBranch.forcedFlat) :
    (updRes s t).aimd.getD i 0 = 0 ∧
      (pnlListOf s.cfg.transaction_cost t.price s.pos (updRes s t).newPos
          (updEntryPrices s.pos (updRes s t).newPos s.entryPrices t.price)).getD i 0
        = (calcPnl s.cfg.transaction_cost 0 t.price (s.pos.getD i 0)).1 ∧
      (normalStep s t).entryPrices.getD i 0 = 0 ∧
      (normalStep s t).entryTimes.getD i none = none ∧
      (normalStep s t).asks.getD i 0 = s.asks.getD i 0 := by
  have hsig := getSignals_length s t
  have hzw : (List.zipWith (fun a s => a * s) s.asks (getSignals s t)).length = s.numStrats := by
    rw [List.length_zipWith, hasks, hsig]
    omega
  have hz : ((List.zipWith (fun a s => a * s) s.asks (getSignals s t)).zip s.pos).length
      = s.numStrats := by
    rw [List.length_zip, hzw, hpos]
    omega
  have hslots : (updateLoop 0
      ((List.zipWith (fun a s => a * s) s.asks (getSignals s t)).zip s.pos)).length
      = s.numStrats := by
    rw [updateLoop_length]
    exact hz
  have hnew : (updRes s t).newPos.length = s.numStrats := by
    show (updatePosition s.cfg.inventory_limit s.pos (getSignals s t) s.asks).newPos.length
      = s.numStrats
    rw [updatePosition_newPos_eq, normalizeGo_length, List.length_map]
    exact hslots
  have heP2 : (updEntryPrices s.pos (updRes s t).newPos s.entryPrices t.price).length
      = s.numStrats := by
    rw [updEntryPrices_length, hpos, hnew, heP]
    omega
  have haimd : (updRes s t).aimd.getD i 0 = 0 := by
    exact updatePosition_aimd_of_branch s.cfg.inventory_limit s.pos (getSignals s t) s.asks i
      (by omega) hb1 hb2
  have heP0 : (updEntryPrices s.pos (updRes s t).newPos s.entryPrices t.price).getD i 0 = 0 := by
    rw [updEntryPrices_getD t.price s.pos (updRes s t).newPos s.entryPrices i
      (by omega) (by omega) (by omega)]
    rw [if_neg (by intro hcon; exact hprev hcon.1), if_pos ⟨hcurr, hprev⟩]
  have hpnl : (pnlListOf s.cfg.transaction_cost t.price s.pos (updRes s t).newPos
      (updEntryPrices s.pos (updRes s t).newPos s.entryPrices t.price)).getD i 0
      = (calcPnl s.cfg.transaction_cost 0 t.price (s.pos.getD i 0)).1 := by
    rw [pnlListOf_getD s.cfg.transaction_cost t.price s.pos (updRes s t).newPos
      (updEntryPrices s.pos (updRes s t).newPos s.entryPrices t.price) i
      (by omega) (by omega) (by omega)]
    rw [if_pos ⟨hprev, by rw [hcurr]; simp⟩, heP0]
  refine ⟨haimd, hpnl, ?_, ?_, ?_⟩
  · rw [normalStep_entryPrices]
    exact heP0
  · rw [normalStep_entryTimes]
    rw [updEntryTimes_getD t.timeSec s.pos (updRes s t).newPos s.entryTimes i
      (by omega) (by omega) (by omega)]
    rw [if_neg (by intro hcon; exact hprev hcon.1), if_pos ⟨hcurr, hprev⟩]
  · rw [normalStep_asks]
    refine (asks_update_getD s.cfg.reward_add s.cfg.penalty_mult s.asks _ _ i (by omega)).2 ?_
    intro hcon
    rw [haimd] at hcon
    exact absurd hcon.2 (by decide)

/-- A two-strategy state in which slot 0 is about to open with request 15
against cap 10, starving slot 1 (held at 7) down to 0 through normalize. -/
def sC : Orch :=
  { numStrats := 2
    cfg := { cfgA with inventory_limit := 10 }
    pos := [0, 7]
    asks := [15, 5]
    cash := 0
    equity := 0
    entryPrices := [0, 3]
    entryTimes := [none, some 5]
    lastTradeTime := -15
    dayLength := 21600
    eodSquaredOff := false
    currentPointer := 0
    tradeBacklog := 0
    currentInventory := 0
    currentDay := some 1
    dayStartEquity := 0
    dayStartFees := 0
    dayStartTradeIdx := 0
    totalFee := 0
    trades := []
    snapCount := 0 }

/-- A tick on which only strategy 0 signals a long entry. -/
def tickC : Tick :=
  { timeSec := 50
    price := 2
    longEntry := [true, false]
    shortEntry := []
    longExit := []
    shortExit := [] }

/-- Witness for C10: slot 1 of `sC` is starved from 7 to 0 purely by
normalize (its branch is the silent keep branch), its closed flag is 0, its
entry bookkeeping is cleared with a pnl computed, and its ask is unchanged. -/
theorem starvation_close_unflagged_witness :
    (sC.pos.length = sC.numStrats ∧ sC.asks.length = sC.numStrats ∧
        sC.entryPrices.length = sC.numStrats ∧ sC.entryTimes.length = sC.numStrats ∧
        1 < sC.numStrats ∧ sC.pos.getD 1 0 ≠ 0 ∧ (updRes sC tickC).newPos.getD 1 0 = 0 ∧
        (updRes sC tickC).branches.getD 1 UBranch.free ≠ UBranch.squareOff ∧
        (updRes sC tickC).branches.getD 1 UBranch.free ≠ UBranch.forcedFlat) ∧
      ((updRes sC tickC).aimd.getD 1 0 = 0 ∧
        (pnlListOf sC.cfg.transaction_cost tickC.price sC.pos (updRes sC tickC).newPos
            (updEntryPrices sC.pos (updRes sC tickC).newPos sC.entryPrices tickC.price)).getD 1 0
          = (calcPnl sC.cfg.transaction_cost 0 tickC.price (sC.pos.getD 1 0)).1 ∧
        (normalStep sC tickC).entryPrices.getD 1 0 = 0 ∧
        (normalStep sC tickC).entryTimes.getD 1 none = none ∧
        (normalStep sC tickC).asks.getD 1 0 = sC.asks.getD 1 0) :=
  ⟨⟨by decide, by decide, by decide, by decide, by decide, by decide, by decide, by decide,
      by decide⟩,
    starvation_close_unflagged sC tickC 1 (by decide) (by decide) (by decide) (by decide)
      (by decide) (by decide) (by decide) (by decide) (by decide)⟩
